import Mathlib

set_option linter.unusedSectionVars false

/-!
Verification of the trusted-dealer FROST key-generation module
(`trusted_dealer.py`) over a shallow embedding.

Modelling conventions, following the module itself and its stated external
interfaces:

* The secp256k1 scalar field and the curve group are external collaborators
  of the module.  The group is cyclic of prime order, generated by `G`, and
  every point handled by the module is a scalar multiple of `G`; we therefore
  represent a group element by its discrete logarithm base `G`: both `Scalar`
  and point values live in a commutative ring `F` with an inverse operation
  (the scalar field), the point at infinity is `0`, the generator `G` is `1`,
  point addition is `+`, and multiplication of a point by (the integer
  representative of) a scalar is ring multiplication.  Theorems that need the
  full field contract of the external library assume `Field F`.
* The tagged hash `tagged_hash("TapTweak", xonly(P) ++ bytes(32))` followed by
  `Scalar.from_bytes_wrapping`, and the even-Y parity test, are external and
  deterministic; they are abstracted as the two fields of `TapHashCtx`.
  The x-only encoding of the point at infinity is rejected by the external
  library, so deriving the tweak of the identity point fails.
* Randomness is externalized: `tape k` is the k-th scalar the dealer samples
  (`tape 0` coming from the nonzero sampler, the rest from the plain one).
* A raised `ValueError` / failed assertion is modelled as `Except.error` with
  a variant of `Err` per distinct raise site.
-/

namespace TrustedDealer

/-- Failure modes of the module, one variant per raise site of the source
(plus the externally raised failure of the x-only encoding at infinity). -/
inductive Err where
  /-- keygen: n must be at least 1 -/
  | invalidN : Err
  /-- keygen: t must satisfy 1 <= t <= n -/
  | invalidT : Err
  /-- keygen: invalid polynomial, A_0 is infinity -/
  | a0Infinity : Err
  /-- keygen and derivation: tweaked group public key is infinity -/
  | groupKeyInfinity : Err
  /-- keygen: secret share for the given id is 0 -/
  | zeroShare : ℕ → Err
  /-- keygen: the internal consistency check P_i_Q == d_i * G failed -/
  | assertionFailed : Err
  /-- derivation: empty commitment list -/
  | emptyCommitments : Err
  /-- derivation: invalid commitment, A_0 is infinity -/
  | commitmentA0Infinity : Err
  /-- external x-only encoding applied to the point at infinity -/
  | xonlyInfinity : Err
  /-- modular inverse of the zero scalar -/
  | zeroDivisor : Err
  /-- Lagrange: target_id must be in ids -/
  | targetNotInIds : Err
  /-- Lagrange and reconstruction: duplicate ids not allowed -/
  | duplicateIds : Err
  /-- reconstruction: ids and pubshares length mismatch -/
  | lengthMismatch : Err
  /-- reconstruction: need at least one share -/
  | noShares : Err
  /-- reconstruction: interpolation yielded infinity -/
  | interpolationInfinity : Err
deriving DecidableEq

/-- Decidable equality for fallible results, used to evaluate the embedded
functions on concrete inputs. -/
instance instDecEqExcept {e a : Type} [DecidableEq e] [DecidableEq a] :
    DecidableEq (Except e a) := fun x y =>
  match x, y with
  | .error u, .error v =>
      if h : u = v then .isTrue (by rw [h]) else .isFalse (by simp [h])
  | .error _, .ok _ => .isFalse (by simp)
  | .ok _, .error _ => .isFalse (by simp)
  | .ok u, .ok v =>
      if h : u = v then .isTrue (by rw [h]) else .isFalse (by simp [h])

/-- The external tagged-hash and parity primitives used for the Taproot
tweak, abstracted as deterministic functions of the (non-identity) input
point.  `tapTweakHash P` models
`Scalar.from_bytes_wrapping(tagged_hash("TapTweak", P.to_bytes_xonly() + bytes(32)))`
and `hasEvenY P` models `P.has_even_y()`. -/
structure TapHashCtx (F : Type) where
  tapTweakHash : F → F
  hasEvenY : F → Bool

section Defs

variable {F : Type} [CommRing F] [Inv F] [DecidableEq F]

/-- The fixed base generator of the curve group.  In the discrete-log
representation of the group it is the ring unit. -/
def G : F := 1

/-- Loop of `eval_point_poly`: `result += int(power) * A; power *= x`. -/
def eval_point_poly_loop (x : F) : F → F → List F → F
  | result, _, [] => result
  | result, power, A :: rest =>
      eval_point_poly_loop x (result + power * A) (power * x) rest

/-- Evaluate an elliptic-curve polynomial at the point x:
`E(X) = sum_j commitments[j] * X^j`, with a running power of x. -/
def eval_point_poly (commitments : List F) (x : F) : F :=
  eval_point_poly_loop x 0 1 commitments

/-- Loop of `eval_scalar_poly`: `result += c * power; power *= x`. -/
def eval_scalar_poly_loop (x : F) : F → F → List F → F
  | result, _, [] => result
  | result, power, c :: rest =>
      eval_scalar_poly_loop x (result + c * power) (power * x) rest

/-- Evaluate a scalar polynomial at the point x:
`f(X) = sum_j coeffs[j] * X^j`, with a running power of x. -/
def eval_scalar_poly (coeffs : List F) (x : F) : F :=
  eval_scalar_poly_loop x 0 1 coeffs

/-- Compute the Taproot tweak and sign bit for an x-only internal key
(`_taproot_tweak_and_sign`).  The external x-only encoding rejects the
point at infinity; otherwise the tweak is the wrapped tagged hash of the
x-only key with a zero Merkle root, and g is +1 for even Y else -1. -/
def taproot_tweak_and_sign (ctx : TapHashCtx F) (P : F) :
    Except Err (F × ℤ) :=
  if P = 0 then .error .xonlyInfinity
  else
    .ok (ctx.tapTweakHash P, if ctx.hasEvenY P then 1 else -1)

/-- Compute the multiplicative inverse of x modulo the group order
(`modinv_scalar`); `pow(int(x), -1, n)` of the external library is the
ring inverse operation.  Fails on x = 0. -/
def modinv_scalar (x : F) : Except Err F :=
  if x = 0 then .error .zeroDivisor
  else .ok x⁻¹

/-- Per-participant loop of `trusted_dealer_key_generation`, over the list
of participant ids: computes E(i), f(i), the tweaked secret share
`d_i = g * f(i) + tweak` (failing on a zero share), the tweaked public
share `P_i_Q = g * E(i) + tweak * G`, and asserts `P_i_Q == d_i * G`. -/
def keygen_shares (coeffs : List F) (vss_commitment : List F)
    (tweak : F) (g : ℤ) : List ℕ → Except Err (List F × List F)
  | [] => .ok ([], [])
  | i :: rest =>
      let idx : F := (i : F)
      let E := eval_point_poly vss_commitment idx
      let f_id := eval_scalar_poly coeffs idx
      let d_i := (g : F) * f_id + tweak
      if d_i = 0 then .error (.zeroShare i)
      else
        let P_i_Q := (g : F) * E + tweak * G
        if P_i_Q = d_i * G then
          match keygen_shares coeffs vss_commitment tweak g rest with
          | .error e => .error e
          | .ok (ss, ps) => .ok (d_i :: ss, P_i_Q :: ps)
        else .error .assertionFailed

/-- Trusted-dealer t-of-n key generation (`trusted_dealer_key_generation`).
The random samples are externalized into `tape`; the polynomial
coefficients are `tape 0, ..., tape (t-1)`, where `tape 0` is the output
of the nonzero sampler.  Returns the Feldman commitment list, the tweaked
secret shares and the tweaked public shares for participants 1..n. -/
def trusted_dealer_key_generation (ctx : TapHashCtx F) (tape : ℕ → F)
    (t n : ℕ) : Except Err (List F × List F × List F) :=
  if n < 1 then .error .invalidN
  else if ¬(1 ≤ t ∧ t ≤ n) then .error .invalidT
  else
    let coeffs : List F := (List.range t).map tape
    let vss_commitment : List F := coeffs.map (fun a => a * G)
    let P : F := vss_commitment.headD 0
    if P = 0 then .error .a0Infinity
    else
      match taproot_tweak_and_sign ctx P with
      | .error e => .error e
      | .ok (tweak, g) =>
          let Q := (g : F) * P + tweak * G
          if Q = 0 then .error .groupKeyInfinity
          else
            match keygen_shares coeffs vss_commitment tweak g
                (List.range' 1 n) with
            | .error e => .error e
            | .ok (secret_shares, public_shares) =>
                .ok (vss_commitment, secret_shares, public_shares)

/-- Verify that a tweaked secret share is consistent with the VSS
commitments (`verify_share`): checks `sec_share * G == g * E(id) + tweak * G`,
returning false on any malformed input. -/
def verify_share (ctx : TapHashCtx F) (participant_id : ℤ) (sec_share : F)
    (vss_commitment : List F) : Bool :=
  if sec_share = 0 then false
  else if participant_id ≤ 0 then false
  else if vss_commitment = [] then false
  else
    let P : F := vss_commitment.headD 0
    if P = 0 then false
    else
      match taproot_tweak_and_sign ctx P with
      | .error _ => false
      | .ok (tweak, g) =>
          let idx : F := (participant_id : F)
          let E := eval_point_poly vss_commitment idx
          let expected_pub := (g : F) * E + tweak * G
          decide (expected_pub = sec_share * G)

/-- Derive the tweaked group public key Q directly from VSS commitments
(`group_pubkey_from_commitment`): `Q = g * A_0 + tweak * G`. -/
def group_pubkey_from_commitment (ctx : TapHashCtx F)
    (vss_commitment : List F) : Except Err F :=
  if vss_commitment = [] then .error .emptyCommitments
  else
    let P : F := vss_commitment.headD 0
    if P = 0 then .error .commitmentA0Infinity
    else
      match taproot_tweak_and_sign ctx P with
      | .error e => .error e
      | .ok (tweak, g) =>
          let Q := (g : F) * P + tweak * G
          if Q = 0 then .error .groupKeyInfinity
          else .ok Q

/-- Loop of `lagrange_at_zero`: running numerator and denominator products
over the ids other than the target, interpreted as scalars. -/
def lagrange_loop (target_id : ℤ) (x : F) : List ℤ → F × F → F × F
  | [], acc => acc
  | j :: rest, (num, denom) =>
      if j = target_id then lagrange_loop target_id x rest (num, denom)
      else lagrange_loop target_id x rest (num * (j : F), denom * ((j : F) - x))

/-- Compute the Lagrange coefficient for interpolation at X = 0
(`lagrange_at_zero`):
`lambda = prod_[j in ids, j-ne-target] j / (j - target_id)` in the scalar
field, as running products finished with one modular inverse. -/
def lagrange_at_zero (ids : List ℤ) (target_id : ℤ) : Except Err F :=
  if target_id ∉ ids then .error .targetNotInIds
  else if ¬ ids.Nodup then .error .duplicateIds
  else
    let x : F := (target_id : F)
    let p := lagrange_loop target_id x ids (1, 1)
    match modinv_scalar p.2 with
    | .error e => .error e
    | .ok denom_inv => .ok (p.1 * denom_inv)

/-- Accumulation loop of `group_pub_from_tweaked_pubshares`:
`Q += int(lam_i) * P_i` over the zipped (id, pubshare) pairs. -/
def reconstruct_loop (ids : List ℤ) : List (ℤ × F) → F → Except Err F
  | [], Q => .ok Q
  | (id_i, P_i) :: rest, Q =>
      match lagrange_at_zero ids id_i with
      | .error e => .error e
      | .ok lam_i => reconstruct_loop ids rest (Q + lam_i * P_i)

/-- Reconstruct the tweaked group public key from tweaked public shares
(`group_pub_from_tweaked_pubshares`) by Lagrange interpolation at X = 0. -/
def group_pub_from_tweaked_pubshares (ids : List ℤ) (pubshares : List F) :
    Except Err F :=
  if ids.length ≠ pubshares.length then .error .lengthMismatch
  else if ids.length = 0 then .error .noShares
  else if ¬ ids.Nodup then .error .duplicateIds
  else
    match reconstruct_loop ids (ids.zip pubshares) 0 with
    | .error e => .error e
    | .ok Q =>
        if Q = 0 then .error .interpolationInfinity
        else .ok Q

/-- Specification-side running numerator of the Lagrange coefficient,
written from the spec formula: the product of `j` over all `j` in ids
other than the target, interpreted as scalars. -/
def lagrange_spec_num (ids : List ℤ) (target_id : ℤ) : F :=
  ((ids.filter (fun j => j ≠ target_id)).map (fun j : ℤ => (j : F))).prod

/-- Specification-side running denominator of the Lagrange coefficient,
written from the spec formula: the product of `j - target_id` over all `j`
in ids other than the target, interpreted as scalars. -/
def lagrange_spec_denom (ids : List ℤ) (target_id : ℤ) : F :=
  ((ids.filter (fun j => j ≠ target_id)).map
      (fun j : ℤ => (j : F) - (target_id : F))).prod

/-- The Lagrange coefficient value that `lagrange_at_zero` computes on
well-formed input: numerator product times the inverse of the denominator
product. -/
def lagrange_val (ids : List ℤ) (target_id : ℤ) : F :=
  lagrange_spec_num ids target_id * (lagrange_spec_denom ids target_id)⁻¹

/-- The tweak of a dealer run whose internal key point is P. -/
def tweakOf (ctx : TapHashCtx F) (P : F) : F := ctx.tapTweakHash P

/-- The parity sign of a dealer run whose internal key point is P. -/
def signOf (ctx : TapHashCtx F) (P : F) : ℤ :=
  if ctx.hasEvenY P then 1 else -1

/-- The tweaked group public key `Q = g * P + tweak * G` of a dealer run
whose internal key point is P. -/
def groupKeyOf (ctx : TapHashCtx F) (P : F) : F :=
  ((signOf ctx P : ℤ) : F) * P + tweakOf ctx P * G

end Defs

section LoopLemmas

variable {F : Type} [CommRing F] [Inv F] [DecidableEq F]

theorem eval_scalar_poly_loop_shift (x : F) (l : List F) :
    ∀ r p : F, eval_scalar_poly_loop x r p l = r + p * eval_scalar_poly l x := by
  induction l with
  | nil => intro r p; simp [eval_scalar_poly, eval_scalar_poly_loop]
  | cons c cs ih =>
      intro r p
      simp only [eval_scalar_poly, eval_scalar_poly_loop]
      rw [ih, ih]
      ring

theorem eval_scalar_poly_nil (x : F) : eval_scalar_poly ([] : List F) x = 0 :=
  rfl

theorem eval_scalar_poly_cons (c : F) (cs : List F) (x : F) :
    eval_scalar_poly (c :: cs) x = c + x * eval_scalar_poly cs x := by
  show eval_scalar_poly_loop x 0 1 (c :: cs) = _
  rw [show eval_scalar_poly_loop x 0 1 (c :: cs)
        = eval_scalar_poly_loop x (0 + c * 1) (1 * x) cs from rfl]
  rw [eval_scalar_poly_loop_shift]
  ring

theorem eval_point_poly_eq_scalar (l : List F) (x : F) :
    eval_point_poly l x = eval_scalar_poly l x := by
  suffices h : ∀ r p : F,
      eval_point_poly_loop x r p l = eval_scalar_poly_loop x r p l by
    exact h 0 1
  induction l with
  | nil => intro r p; rfl
  | cons c cs ih =>
      intro r p
      simp only [eval_point_poly_loop, eval_scalar_poly_loop]
      rw [ih, mul_comm p c]

/-- The scalar polynomial with coefficient list l, lowest degree first.
A proof-layer bridge to the Mathlib polynomial library; the executable
evaluators of the source are related to it below. -/
noncomputable def toPoly : List F → Polynomial F
  | [] => 0
  | c :: cs => Polynomial.C c + Polynomial.X * toPoly cs

theorem eval_scalar_poly_eq_eval (l : List F) (x : F) :
    eval_scalar_poly l x = (toPoly l).eval x := by
  induction l with
  | nil => simp [eval_scalar_poly_nil, toPoly]
  | cons c cs ih => simp [eval_scalar_poly_cons, toPoly, ih]

theorem toPoly_eval_zero (l : List F) : (toPoly l).eval 0 = l.headD 0 := by
  cases l with
  | nil => simp [toPoly]
  | cons c cs => simp [toPoly]

theorem toPoly_degree_lt (l : List F) :
    (toPoly l).degree < (l.length : ℕ) := by
  induction l with
  | nil =>
      simp only [toPoly, Polynomial.degree_zero, List.length_nil]
      exact WithBot.bot_lt_coe 0
  | cons c cs ih =>
      simp only [toPoly, List.length_cons]
      refine lt_of_le_of_lt (Polynomial.degree_add_le _ _) ?_
      rw [max_lt_iff]
      constructor
      · refine lt_of_le_of_lt Polynomial.degree_C_le ?_
        exact_mod_cast Nat.succ_pos cs.length
      · refine lt_of_le_of_lt (Polynomial.degree_mul_le _ _) ?_
        refine lt_of_le_of_lt
          (add_le_add_right Polynomial.degree_X_le (toPoly cs).degree) ?_
        have h1 : (1 : WithBot ℕ) + (toPoly cs).degree
            < (1 : WithBot ℕ) + (cs.length : ℕ) :=
          WithBot.add_lt_add_left (by simp) ih
        refine h1.trans_le (le_of_eq ?_)
        rw [show ((cs.length + 1 : ℕ) : WithBot ℕ)
              = ((1 + cs.length : ℕ) : WithBot ℕ) by rw [Nat.add_comm]]
        exact_mod_cast rfl

end LoopLemmas

section RunLemmas

variable {F : Type} [CommRing F] [Inv F] [DecidableEq F]

theorem taproot_ok (ctx : TapHashCtx F) {P : F} (hP : P ≠ 0) :
    taproot_tweak_and_sign ctx P = .ok (tweakOf ctx P, signOf ctx P) := by
  simp [taproot_tweak_and_sign, hP, tweakOf, signOf]

theorem map_mul_G (l : List F) : l.map (fun a => a * G) = l := by
  simp [G]

theorem keygen_shares_ok_elim {coeffs vss : List F} {tweak : F} {g : ℤ} :
    ∀ {L : List ℕ} {ss ps : List F},
      keygen_shares coeffs vss tweak g L = .ok (ss, ps) →
      ss = L.map (fun i : ℕ =>
        (g : F) * eval_scalar_poly coeffs (i : F) + tweak) ∧
      ps = L.map (fun i : ℕ =>
        (g : F) * eval_point_poly vss (i : F) + tweak * G) ∧
      (∀ i ∈ L, (g : F) * eval_scalar_poly coeffs (i : F) + tweak ≠ 0) ∧
      (∀ i ∈ L, (g : F) * eval_point_poly vss (i : F) + tweak * G
          = ((g : F) * eval_scalar_poly coeffs (i : F) + tweak) * G) := by
    intro L
    induction L with
    | nil =>
        intro ss ps h
        simp only [keygen_shares] at h
        cases h
        simp
    | cons i rest ih =>
        intro ss ps h
        simp only [keygen_shares] at h
        by_cases hd : (g : F) * eval_scalar_poly coeffs (i : F) + tweak = 0
        · rw [if_pos hd] at h
          cases h
        · rw [if_neg hd] at h
          by_cases ha : (g : F) * eval_point_poly vss (i : F) + tweak * G
              = ((g : F) * eval_scalar_poly coeffs (i : F) + tweak) * G
          · rw [if_pos ha] at h
            cases hrec : keygen_shares coeffs vss tweak g rest with
            | error e => rw [hrec] at h; cases h
            | ok pr =>
                rw [hrec] at h
                obtain ⟨ss0, ps0⟩ := pr
                cases h
                obtain ⟨h1, h2, h3, h4⟩ := ih hrec
                refine ⟨by rw [h1]; rfl, by rw [h2]; rfl, ?_, ?_⟩
                · intro j hj
                  rcases List.mem_cons.mp hj with hj | hj
                  · subst hj; exact hd
                  · exact h3 j hj
                · intro j hj
                  rcases List.mem_cons.mp hj with hj | hj
                  · subst hj; exact ha
                  · exact h4 j hj
          · rw [if_neg ha] at h
            cases h

theorem run_commitment_headD (tape : ℕ → F) {t : ℕ} (ht : 1 ≤ t) :
    ((List.range t).map tape).headD 0 = tape 0 := by
  cases t with
  | zero => omega
  | succ k => simp [List.range_succ_eq_map]

theorem keygen_ok_elim {ctx : TapHashCtx F} {tape : ℕ → F} {t n : ℕ}
    {vss ss ps : List F}
    (h : trusted_dealer_key_generation ctx tape t n = .ok (vss, ss, ps)) :
    1 ≤ t ∧ t ≤ n ∧
    vss = (List.range t).map tape ∧
    tape 0 ≠ 0 ∧
    groupKeyOf ctx (tape 0) ≠ 0 ∧
    keygen_shares ((List.range t).map tape) vss (tweakOf ctx (tape 0))
      (signOf ctx (tape 0)) (List.range' 1 n) = .ok (ss, ps) := by
  simp only [trusted_dealer_key_generation, map_mul_G] at h
  split at h
  · cases h
  split at h
  · cases h
  next hn htn =>
  have htn2 : 1 ≤ t ∧ t ≤ n := not_not.mp htn
  split at h
  · cases h
  next hP =>
  rw [run_commitment_headD tape htn2.1] at hP h
  rw [taproot_ok ctx hP] at h
  split at h
  next e heq => cases heq
  next tw sg heq =>
  have heq2 : tweakOf ctx (tape 0) = tw ∧ signOf ctx (tape 0) = sg := by
    have := heq
    simp only [Except.ok.injEq, Prod.mk.injEq] at this
    exact this
  obtain ⟨htw, hsg⟩ := heq2
  subst htw hsg
  split at h
  · cases h
  next hQ =>
  split at h
  next e heq3 => cases h
  next ssv psv heq3 =>
  cases h
  exact ⟨htn2.1, htn2.2, rfl, hP, by simpa [groupKeyOf, G] using hQ, heq3⟩

theorem keygen_shares_error_elim {coeffs vss : List F} {tweak : F} {g : ℤ} :
    ∀ {L : List ℕ} {e : Err},
      keygen_shares coeffs vss tweak g L = .error e →
      (∃ i, e = .zeroShare i) ∨ e = .assertionFailed := by
  intro L
  induction L with
  | nil => intro e h; simp only [keygen_shares] at h; cases h
  | cons i rest ih =>
      intro e h
      simp only [keygen_shares] at h
      split at h
      · cases h; exact Or.inl ⟨i, rfl⟩
      split at h
      · split at h
        next => cases h; exact ih (by assumption)
        next => cases h
      · cases h; exact Or.inr rfl

end RunLemmas

/-- The spec error taxonomy class `InvalidParameters`: the two parameter
validation failures of key generation. -/
def Err.isInvalidParameters : Err → Bool
  | .invalidN => true
  | .invalidT => true
  | _ => false

section SimpleClaims

variable {F : Type} [CommRing F] [Inv F] [DecidableEq F]

theorem keygen_error_flag {ctx : TapHashCtx F} {tape : ℕ → F} {t n : ℕ}
    {e : Err} (hparams : 1 ≤ t ∧ t ≤ n)
    (h : trusted_dealer_key_generation ctx tape t n = .error e) :
    e.isInvalidParameters = false := by
  have hn : ¬ n < 1 := by omega
  simp only [trusted_dealer_key_generation, if_neg hn,
    if_neg (not_not_intro hparams)] at h
  split at h
  · cases h; rfl
  split at h
  next e2 heq =>
      cases h
      simp only [taproot_tweak_and_sign] at heq
      split at heq
      · cases heq; rfl
      · cases heq
  next tw sg heq =>
  split at h
  · cases h; rfl
  split at h
  next e2 heq2 =>
      cases h
      rcases keygen_shares_error_elim heq2 with ⟨i, rfl⟩ | rfl <;> rfl
  next => cases h

end SimpleClaims

section ClaimsA

variable {F : Type} [CommRing F] [Inv F] [DecidableEq F]

/-- C4: verify_share is a total boolean predicate (it is a function into
Bool, so it never raises), and it returns false on every malformed input:
a zero secret share, a non-positive participant id, an empty commitment
list, or an identity A_0. -/
theorem C4_verify_share_malformed (ctx : TapHashCtx F) (participant_id : ℤ)
    (sec_share : F) (vss : List F)
    (h : sec_share = 0 ∨ participant_id ≤ 0 ∨ vss = [] ∨ vss.headD 0 = 0) :
    verify_share ctx participant_id sec_share vss = false := by
  rcases h with h | h | h | h
  · simp [verify_share, h]
  · simp [verify_share, h]
  · simp [verify_share, h]
  · have h2 : vss.head?.getD 0 = 0 := by simpa using h
    simp [verify_share, h2]

/-- C5: the tweak derivation fails on the identity point (whose x-only
encoding the external library rejects), and on every other point it
returns the wrapped TapTweak tagged hash of the x-only key together with
the sign +1 for even Y and -1 for odd Y.  It is a pure function, hence
identical across repeated calls on the same point. -/
theorem C5_taproot_tweak (ctx : TapHashCtx F) (P : F) :
    (P = 0 → ∃ e, taproot_tweak_and_sign ctx P = .error e) ∧
    (P ≠ 0 → taproot_tweak_and_sign ctx P =
        .ok (ctx.tapTweakHash P, if ctx.hasEvenY P then 1 else -1)) := by
  constructor
  · intro hP
    exact ⟨.xonlyInfinity, by simp [taproot_tweak_and_sign, hP]⟩
  · intro hP
    simp [taproot_tweak_and_sign, hP]

/-- C7: key generation fails with an InvalidParameters error exactly when
the parameter condition `1 <= t <= n` (with `n >= 1`) is violated, and in
particular (t = 0, n = 5) and (t = 3, n = 2) both fail this way.  The
result is independent of the random tape: the theorem holds for every
tape, so the failure occurs before any randomness is consumed. -/
theorem C7_invalid_parameters (ctx : TapHashCtx F) (tape : ℕ → F)
    (t n : ℕ) :
    ((∃ e, trusted_dealer_key_generation ctx tape t n = .error e ∧
        e.isInvalidParameters = true) ↔ ¬(1 ≤ t ∧ t ≤ n ∧ 1 ≤ n)) ∧
    trusted_dealer_key_generation ctx tape 0 5 = .error .invalidT ∧
    trusted_dealer_key_generation ctx tape 3 2 = .error .invalidT := by
  refine ⟨⟨?_, ?_⟩, ?_, ?_⟩
  · rintro ⟨e, he, hflag⟩
    intro hok
    rw [keygen_error_flag ⟨hok.1, hok.2.1⟩ he] at hflag
    cases hflag
  · intro hbad
    by_cases hn : n < 1
    · refine ⟨.invalidN, ?_, rfl⟩
      simp [trusted_dealer_key_generation, hn]
    · have htn : ¬(1 ≤ t ∧ t ≤ n) := by omega
      refine ⟨.invalidT, ?_, rfl⟩
      simp [trusted_dealer_key_generation, hn, htn]
  · simp [trusted_dealer_key_generation]
  · simp [trusted_dealer_key_generation]

/-- C8: deriving the group key from the commitment list fails with a
structured error exactly on an empty list, an identity A_0, or an identity
tweaked key Q; otherwise it returns `Q = g * A_0 + tweak * G`. -/
theorem C8_derive_group_key (ctx : TapHashCtx F) (vss : List F) :
    (vss = [] →
        group_pubkey_from_commitment ctx vss = .error .emptyCommitments) ∧
    (vss ≠ [] → vss.headD 0 = 0 →
        group_pubkey_from_commitment ctx vss = .error .commitmentA0Infinity) ∧
    (vss ≠ [] → vss.headD 0 ≠ 0 → groupKeyOf ctx (vss.headD 0) = 0 →
        group_pubkey_from_commitment ctx vss = .error .groupKeyInfinity) ∧
    (vss ≠ [] → vss.headD 0 ≠ 0 → groupKeyOf ctx (vss.headD 0) ≠ 0 →
        group_pubkey_from_commitment ctx vss =
          .ok (groupKeyOf ctx (vss.headD 0))) := by
  refine ⟨?_, ?_, ?_, ?_⟩
  · intro h
    simp [group_pubkey_from_commitment, h]
  · intro h1 h2
    have h2b : vss.head?.getD 0 = 0 := by simpa using h2
    simp [group_pubkey_from_commitment, h1, h2b]
  · intro h1 h2 h3
    simp only [group_pubkey_from_commitment, if_neg h1, if_neg h2,
      taproot_ok ctx h2]
    rw [if_pos]
    simpa [groupKeyOf, tweakOf, signOf] using h3
  · intro h1 h2 h3
    simp only [group_pubkey_from_commitment, if_neg h1, if_neg h2,
      taproot_ok ctx h2]
    rw [if_neg]
    · simp [groupKeyOf, tweakOf, signOf]
    · simpa [groupKeyOf, tweakOf, signOf] using h3

end ClaimsA

/-- A concrete tagged-hash context over a small prime field, used to
evaluate the embedded functions on explicit inputs: the hash is the
constant zero scalar and every point reports even Y. -/
def ctxW : TapHashCtx (ZMod 5) := ⟨fun _ => 0, fun _ => true⟩

/-- Witness for C4 at a concrete malformed input. -/
theorem C4_witness :
    verify_share ctxW 0 (3 : ZMod 5) [1] = false :=
  C4_verify_share_malformed ctxW 0 3 [1] (Or.inr (Or.inl (by decide)))

/-- Witness for C5 at the identity point and at a concrete regular point. -/
theorem C5_witness :
    (∃ e, taproot_tweak_and_sign ctxW (0 : ZMod 5) = .error e) ∧
    taproot_tweak_and_sign ctxW (3 : ZMod 5) =
      .ok (ctxW.tapTweakHash 3, if ctxW.hasEvenY 3 then 1 else -1) :=
  ⟨(C5_taproot_tweak ctxW 0).1 rfl, (C5_taproot_tweak ctxW 3).2 (by decide)⟩

/-- Witness for C7 at concrete parameters, including a valid pair on which
no InvalidParameters error occurs. -/
theorem C7_witness :
    trusted_dealer_key_generation ctxW (fun _ => 1) 0 5 = .error .invalidT ∧
    trusted_dealer_key_generation ctxW (fun _ => 1) 3 2 = .error .invalidT ∧
    ¬(∃ e, trusted_dealer_key_generation ctxW (fun _ => 1) 2 3 = .error e ∧
        e.isInvalidParameters = true) := by
  refine ⟨(C7_invalid_parameters ctxW (fun _ => 1) 0 5).2.1,
    (C7_invalid_parameters ctxW (fun _ => 1) 3 2).2.2, ?_⟩
  rw [(C7_invalid_parameters ctxW (fun _ => 1) 2 3).1]
  omega

/-- Witness for C8 at a concrete commitment list. -/
theorem C8_witness :
    group_pubkey_from_commitment ctxW [2] = .ok (groupKeyOf ctxW 2) :=
  (C8_derive_group_key ctxW [2]).2.2.2 (by decide) (by decide) (by decide)

section ClaimsB

variable {F : Type} [CommRing F] [Inv F] [DecidableEq F]

theorem getD_range'_map (f : ℕ → F) (n i : ℕ) (h1 : 1 ≤ i) (h2 : i ≤ n) :
    ((List.range' 1 n).map f).getD (i - 1) 0 = f i := by
  have hidx : i - 1 < ((List.range' 1 n).map f).length := by
    simp; omega
  rw [List.getD_eq_getElem _ _ hidx]
  rw [List.getElem_map]
  rw [List.getElem_range']
  congr 1
  omega

/-- C1: for every successful key-generation run with valid parameters,
there are exactly n secret shares and n public shares, and the share
stored at list index i-1 verifies against the commitment list under
participant id i, for every i in 1..n. -/
theorem C1_keygen_yields_verifying_shares (ctx : TapHashCtx F)
    (tape : ℕ → F) (t n : ℕ) (vss ss ps : List F)
    (hrun : trusted_dealer_key_generation ctx tape t n = .ok (vss, ss, ps)) :
    ss.length = n ∧ ps.length = n ∧
    ∀ i : ℕ, 1 ≤ i → i ≤ n →
      verify_share ctx (i : ℤ) (ss.getD (i - 1) 0) vss = true := by
  obtain ⟨ht1, ht2, hvss, ha0, hQ, hsh⟩ := keygen_ok_elim hrun
  obtain ⟨hss, hps, hnz, hassert⟩ := keygen_shares_ok_elim hsh
  subst hvss hss hps
  refine ⟨by simp, by simp, ?_⟩
  intro i hi1 hi2
  have hmem : i ∈ List.range' 1 n := by
    rw [List.mem_range'_1]; omega
  rw [getD_range'_map _ n i hi1 hi2]
  have hd0 := hnz i hmem
  have hne : (List.range t).map tape ≠ [] := by
    simp; omega
  simp only [verify_share]
  rw [if_neg hd0]
  rw [if_neg (show ¬((i : ℤ) ≤ 0) by omega)]
  rw [if_neg hne]
  have hhead : (((List.range t).map tape).headD 0 : F) = tape 0 :=
    run_commitment_headD tape ht1
  rw [hhead]
  rw [if_neg ha0]
  rw [taproot_ok ctx ha0]
  show decide _ = true
  rw [decide_eq_true_eq]
  rw [eval_point_poly_eq_scalar]
  push_cast
  simp [G]

/-- C3: for every successful key-generation run, the public share at index
i-1 is the secret share at index i-1 times the generator, and every secret
share is nonzero. -/
theorem C3_share_invariants (ctx : TapHashCtx F)
    (tape : ℕ → F) (t n : ℕ) (vss ss ps : List F)
    (hrun : trusted_dealer_key_generation ctx tape t n = .ok (vss, ss, ps)) :
    ∀ i : ℕ, 1 ≤ i → i ≤ n →
      ps.getD (i - 1) 0 = ss.getD (i - 1) 0 * G ∧ ss.getD (i - 1) 0 ≠ 0 := by
  obtain ⟨ht1, ht2, hvss, ha0, hQ, hsh⟩ := keygen_ok_elim hrun
  obtain ⟨hss, hps, hnz, hassert⟩ := keygen_shares_ok_elim hsh
  subst hvss hss hps
  intro i hi1 hi2
  have hmem : i ∈ List.range' 1 n := by
    rw [List.mem_range'_1]; omega
  rw [getD_range'_map _ n i hi1 hi2, getD_range'_map _ n i hi1 hi2]
  exact ⟨hassert i hmem, hnz i hmem⟩

end ClaimsB

/-- Witness for C1: a concrete t = 2, n = 3 run over the small field, with
the verification conclusion instantiated at participant 2. -/
theorem C1_witness :
    ([2, 3, 4] : List (ZMod 5)).length = 3 ∧
    verify_share ctxW (2 : ℤ) (([2, 3, 4] : List (ZMod 5)).getD (2 - 1) 0)
      [1, 1] = true := by
  have h := C1_keygen_yields_verifying_shares ctxW (fun _ => 1) 2 3
    [1, 1] [2, 3, 4] [2, 3, 4] (by decide)
  exact ⟨h.1, h.2.2 2 (by decide) (by decide)⟩

/-- Witness for C3: the same concrete run, instantiated at participant 3. -/
theorem C3_witness :
    ([2, 3, 4] : List (ZMod 5)).getD (3 - 1) 0 =
      ([2, 3, 4] : List (ZMod 5)).getD (3 - 1) 0 * G ∧
    ([2, 3, 4] : List (ZMod 5)).getD (3 - 1) 0 ≠ 0 :=
  C3_share_invariants ctxW (fun _ => 1) 2 3 [1, 1] [2, 3, 4] [2, 3, 4]
    (by decide) 3 (by decide) (by decide)

section LagrangeLemmas

variable {F : Type} [CommRing F] [Inv F] [DecidableEq F]

theorem lagrange_loop_eq (target : ℤ) (l : List ℤ) :
    ∀ a b : F,
      lagrange_loop target ((target : ℤ) : F) l (a, b) =
        (a * lagrange_spec_num l target, b * lagrange_spec_denom l target) := by
  induction l with
  | nil =>
      intro a b
      simp [lagrange_loop, lagrange_spec_num, lagrange_spec_denom]
  | cons j rest ih =>
      intro a b
      by_cases hj : j = target
      · simp only [lagrange_loop, if_pos hj]
        rw [ih]
        simp [lagrange_spec_num, lagrange_spec_denom, hj]
      · simp only [lagrange_loop, if_neg hj]
        rw [ih]
        simp [lagrange_spec_num, lagrange_spec_denom, hj, mul_assoc]

theorem lagrange_at_zero_eq (ids : List ℤ) (target : ℤ)
    (hmem : target ∈ ids) (hnd : ids.Nodup) :
    lagrange_at_zero (F := F) ids target =
      if lagrange_spec_denom (F := F) ids target = 0 then .error .zeroDivisor
      else .ok (lagrange_spec_num ids target *
        (lagrange_spec_denom ids target)⁻¹) := by
  simp only [lagrange_at_zero, if_neg (not_not_intro hmem),
    if_neg (not_not_intro hnd)]
  rw [lagrange_loop_eq]
  simp only [one_mul, modinv_scalar]
  by_cases hd : lagrange_spec_denom (F := F) ids target = 0
  · rw [if_pos hd, if_pos hd]
  · rw [if_neg hd, if_neg hd]

end LagrangeLemmas

section ClaimsC

variable {F : Type} [CommRing F] [Inv F] [DecidableEq F]

/-- C6: the Lagrange coefficient computation fails with the two
InconsistentInput errors exactly as described (membership is tested
first, then integer duplicates), and otherwise returns the running
numerator product times the single modular inverse of the running
denominator product, the inverse failing with ZeroDivisor exactly when
the denominator product is the zero scalar. -/
theorem C6_lagrange_at_zero (ids : List ℤ) (target_id : ℤ) :
    (target_id ∉ ids →
        lagrange_at_zero (F := F) ids target_id = .error .targetNotInIds) ∧
    (target_id ∈ ids → ¬ ids.Nodup →
        lagrange_at_zero (F := F) ids target_id = .error .duplicateIds) ∧
    (target_id ∈ ids → ids.Nodup →
        lagrange_spec_denom (F := F) ids target_id = 0 →
        lagrange_at_zero (F := F) ids target_id = .error .zeroDivisor) ∧
    (target_id ∈ ids → ids.Nodup →
        lagrange_spec_denom (F := F) ids target_id ≠ 0 →
        lagrange_at_zero (F := F) ids target_id =
          .ok (lagrange_spec_num ids target_id *
            (lagrange_spec_denom ids target_id)⁻¹)) := by
  refine ⟨?_, ?_, ?_, ?_⟩
  · intro h
    simp [lagrange_at_zero, h]
  · intro h1 h2
    simp [lagrange_at_zero, h1, h2]
  · intro h1 h2 h3
    rw [lagrange_at_zero_eq ids target_id h1 h2, if_pos h3]
  · intro h1 h2 h3
    rw [lagrange_at_zero_eq ids target_id h1 h2, if_neg h3]

/-- C10: for a single positive id i, the Lagrange coefficient of i within
the singleton list [i] is the scalar 1, and reconstruction from the single
pubshare P echoes P back unchanged for every non-identity P, with no check
against the original threshold. -/
theorem C10_single_share (i : ℤ) (hi : 0 < i) (P : F) (hP : P ≠ 0)
    (hinv1 : (1 : F)⁻¹ = 1) :
    lagrange_at_zero (F := F) [i] i = .ok 1 ∧
    group_pub_from_tweaked_pubshares [i] [P] = .ok P := by
  haveI : Nontrivial F := ⟨⟨P, 0, hP⟩⟩
  have hden : lagrange_spec_denom (F := F) [i] i = 1 := by
    simp [lagrange_spec_denom]
  have hlam : lagrange_at_zero (F := F) [i] i = .ok 1 := by
    rw [lagrange_at_zero_eq [i] i (by simp) (by simp)]
    rw [hden]
    rw [if_neg one_ne_zero]
    simp [lagrange_spec_num, hinv1]
  refine ⟨hlam, ?_⟩
  simp only [group_pub_from_tweaked_pubshares]
  rw [if_neg (by simp)]
  rw [if_neg (by simp)]
  rw [if_neg (by simp)]
  simp only [List.zip_cons_cons, List.zip_nil_left, reconstruct_loop]
  rw [hlam]
  simp only [reconstruct_loop]
  rw [if_neg (by simpa using hP)]
  simp

end ClaimsC

/-- The order of the secp256k1 group: the modulus of the scalar field in
the concrete instantiation of the external curve interface. -/
def secpOrder : ℕ :=
  115792089237316195423570985008687907852837564279074904382605163141518161494337

/-- Witness for C6: a concrete well-formed input where the coefficient is
returned, and the spec test input where the target is missing. -/
theorem C6_witness :
    lagrange_at_zero (F := ZMod 5) [1, 2] 2 =
      .ok (lagrange_spec_num [1, 2] 2 * (lagrange_spec_denom [1, 2] 2)⁻¹) ∧
    lagrange_at_zero (F := ZMod 5) [1, 2] 3 = .error .targetNotInIds :=
  ⟨(C6_lagrange_at_zero [1, 2] 2).2.2.2 (by decide) (by decide) (by decide),
   (C6_lagrange_at_zero [1, 2] 3).1 (by decide)⟩

/-- Witness for C10 over the scalar field of the real curve order. -/
theorem C10_witness :
    lagrange_at_zero (F := ZMod secpOrder) [1] 1 = .ok 1 ∧
    group_pub_from_tweaked_pubshares (F := ZMod secpOrder) [1] [1] = .ok 1 :=
  C10_single_share 1 (by decide) 1 (by decide) (ZMod.inv_one secpOrder)

section ReconstructLemmas

variable {F : Type} [CommRing F] [Inv F] [DecidableEq F]

theorem derive_group_key_ok (ctx : TapHashCtx F) (vss : List F)
    (h1 : vss ≠ []) (h2 : vss.headD 0 ≠ 0)
    (h3 : groupKeyOf ctx (vss.headD 0) ≠ 0) :
    group_pubkey_from_commitment ctx vss =
      .ok (groupKeyOf ctx (vss.headD 0)) := by
  simp only [group_pubkey_from_commitment, if_neg h1, if_neg h2,
    taproot_ok ctx h2]
  rw [if_neg]
  · simp [groupKeyOf, tweakOf, signOf]
  · simpa [groupKeyOf, tweakOf, signOf] using h3

theorem zip_self_map (l : List ℤ) (g : ℤ → F) :
    l.zip (l.map g) = l.map (fun a => (a, g a)) := by
  induction l with
  | nil => rfl
  | cons a rest ih => simp [List.zip_cons_cons, ih]

theorem reconstruct_loop_ok2 (ids : List ℤ) (hndZ : ids.Nodup) :
    ∀ (pairs : List (ℤ × F)) (Q0 : F),
      (∀ pr ∈ pairs, pr.1 ∈ ids) →
      (∀ pr ∈ pairs, lagrange_spec_denom (F := F) ids pr.1 ≠ 0) →
      reconstruct_loop ids pairs Q0 =
        .ok (Q0 + (pairs.map (fun pr => lagrange_val ids pr.1 * pr.2)).sum) := by
  intro pairs
  induction pairs with
  | nil => intro Q0 _ _; simp [reconstruct_loop]
  | cons pr rest ih =>
      intro Q0 hmem hden
      obtain ⟨id_i, P_i⟩ := pr
      have hid : id_i ∈ ids := hmem (id_i, P_i) (List.mem_cons_self _ _)
      have hdi : lagrange_spec_denom (F := F) ids id_i ≠ 0 :=
        hden (id_i, P_i) (List.mem_cons_self _ _)
      simp only [reconstruct_loop]
      rw [lagrange_at_zero_eq ids id_i hid hndZ, if_neg hdi]
      show reconstruct_loop ids rest (Q0 + lagrange_val ids id_i * P_i) = _
      rw [ih _ (fun q hq => hmem q (List.mem_cons_of_mem _ hq))
        (fun q hq => hden q (List.mem_cons_of_mem _ hq))]
      simp [add_assoc]

theorem reconstruct_loop_error_iff (ids : List ℤ) (hndZ : ids.Nodup) :
    ∀ (pairs : List (ℤ × F)) (Q0 : F),
      (∀ pr ∈ pairs, pr.1 ∈ ids) →
      ((∃ e, reconstruct_loop ids pairs Q0 = .error e) ↔
        ∃ pr ∈ pairs, lagrange_spec_denom (F := F) ids pr.1 = 0) := by
  intro pairs
  induction pairs with
  | nil => intro Q0 _; simp [reconstruct_loop]
  | cons pr rest ih =>
      intro Q0 hmem
      obtain ⟨id_i, P_i⟩ := pr
      have hid : id_i ∈ ids := hmem (id_i, P_i) (List.mem_cons_self _ _)
      by_cases hdi : lagrange_spec_denom (F := F) ids id_i = 0
      · constructor
        · intro _
          exact ⟨(id_i, P_i), List.mem_cons_self _ _, hdi⟩
        · intro _
          refine ⟨.zeroDivisor, ?_⟩
          simp only [reconstruct_loop]
          rw [lagrange_at_zero_eq ids id_i hid hndZ, if_pos hdi]
      · simp only [reconstruct_loop]
        rw [lagrange_at_zero_eq ids id_i hid hndZ, if_neg hdi]
        show (∃ e, reconstruct_loop ids rest
            (Q0 + lagrange_val ids id_i * P_i) = .error e) ↔ _
        rw [ih _ (fun q hq => hmem q (List.mem_cons_of_mem _ hq))]
        constructor
        · rintro ⟨q, hq, h0⟩
          exact ⟨q, List.mem_cons_of_mem _ hq, h0⟩
        · rintro ⟨q, hq, h0⟩
          rcases List.mem_cons.mp hq with heq | hq2
          · subst heq
            exact absurd h0 hdi
          · exact ⟨q, hq2, h0⟩

theorem group_pub_ok_elim {ids : List ℤ} {pubs : List F} {Q : F}
    (h : group_pub_from_tweaked_pubshares ids pubs = .ok Q) :
    ids.length = pubs.length ∧ ids ≠ [] ∧ ids.Nodup ∧ Q ≠ 0 ∧
    reconstruct_loop ids (ids.zip pubs) 0 = .ok Q := by
  simp only [group_pub_from_tweaked_pubshares] at h
  split at h
  · cases h
  next hlen =>
  split at h
  · cases h
  next hne =>
  split at h
  · cases h
  next hnd =>
  split at h
  next e heq => cases h
  next Q0 heq =>
  split at h
  · cases h
  next hQ0 =>
  cases h
  refine ⟨not_not.mp hlen, ?_, not_not.mp hnd, hQ0, heq⟩
  intro hn
  exact hne (by simp [hn])

theorem group_pub_eq_sum2 (ids : List ℤ) (pubs : List F)
    (hlen : ids.length = pubs.length) (hne : ids ≠ [])
    (hndZ : ids.Nodup)
    (hden : ∀ i ∈ ids, lagrange_spec_denom (F := F) ids i ≠ 0) :
    group_pub_from_tweaked_pubshares ids pubs =
      (if ((ids.zip pubs).map (fun pr => lagrange_val ids pr.1 * pr.2)).sum = 0
       then .error .interpolationInfinity
       else .ok (((ids.zip pubs).map
          (fun pr => lagrange_val ids pr.1 * pr.2)).sum)) := by
  simp only [group_pub_from_tweaked_pubshares]
  rw [if_neg (fun hc => hc hlen)]
  rw [if_neg (by simpa [List.length_eq_zero] using hne)]
  rw [if_neg (not_not_intro hndZ)]
  rw [reconstruct_loop_ok2 ids hndZ (ids.zip pubs) 0
    (fun pr hpr => (List.of_mem_zip hpr).1)
    (fun pr hpr => hden pr.1 (List.of_mem_zip hpr).1)]
  rw [zero_add]

end ReconstructLemmas

section FieldBridge

variable {F : Type} [Field F] [DecidableEq F]

theorem injOn_cast_toFinset {ids : List ℤ}
    (hnd : (ids.map (fun i : ℤ => (i : F))).Nodup) :
    Set.InjOn (fun i : ℤ => (i : F)) ↑ids.toFinset := by
  intro a ha b hb hab
  exact List.inj_on_of_nodup_map hnd (List.mem_toFinset.mp ha)
    (List.mem_toFinset.mp hb) hab

theorem lagrange_spec_denom_ne_zero {ids : List ℤ}
    (hnd : (ids.map (fun i : ℤ => (i : F))).Nodup) {target : ℤ}
    (hmem : target ∈ ids) :
    lagrange_spec_denom (F := F) ids target ≠ 0 := by
  unfold lagrange_spec_denom
  apply List.prod_ne_zero
  intro h0
  rw [List.mem_map] at h0
  obtain ⟨j, hjmem, hj0⟩ := h0
  rw [List.mem_filter] at hjmem
  obtain ⟨hjin, hjne⟩ := hjmem
  have hcast : (j : F) = (target : F) := sub_eq_zero.mp hj0
  have hjt : j = target := List.inj_on_of_nodup_map hnd hjin hmem hcast
  simp [hjt] at hjne

theorem lagrange_spec_denom_eq_zero_iff (ids : List ℤ) (i : ℤ) :
    lagrange_spec_denom (F := F) ids i = 0 ↔
      ∃ j ∈ ids, j ≠ i ∧ ((j : ℤ) : F) = ((i : ℤ) : F) := by
  unfold lagrange_spec_denom
  rw [List.prod_eq_zero_iff]
  constructor
  · intro h0
    rw [List.mem_map] at h0
    obtain ⟨j, hj, hj0⟩ := h0
    rw [List.mem_filter] at hj
    exact ⟨j, hj.1, by simpa using hj.2, sub_eq_zero.mp hj0⟩
  · rintro ⟨j, hj, hne, hcast⟩
    rw [List.mem_map]
    exact ⟨j, List.mem_filter.mpr ⟨hj, by simpa using hne⟩,
      by rw [hcast, sub_self]⟩

theorem toFinset_filter_ne (ids : List ℤ) (target : ℤ) :
    (ids.filter (fun j => j ≠ target)).toFinset = ids.toFinset.erase target := by
  ext a
  simp [List.mem_toFinset, List.mem_filter, Finset.mem_erase, and_comm]

theorem lagrange_spec_num_finset {ids : List ℤ} (hndZ : ids.Nodup)
    (target : ℤ) :
    lagrange_spec_num (F := F) ids target
      = ∏ j ∈ ids.toFinset.erase target, ((j : ℤ) : F) := by
  rw [← toFinset_filter_ne]
  rw [List.prod_toFinset _ (hndZ.filter _)]
  rfl

theorem lagrange_spec_denom_finset {ids : List ℤ} (hndZ : ids.Nodup)
    (target : ℤ) :
    lagrange_spec_denom (F := F) ids target
      = ∏ j ∈ ids.toFinset.erase target, (((j : ℤ) : F) - ((target : ℤ) : F)) := by
  rw [← toFinset_filter_ne]
  rw [List.prod_toFinset _ (hndZ.filter _)]
  rfl

theorem sum_lagrange_weighted_eval (ids : List ℤ)
    (hnd : (ids.map (fun i : ℤ => (i : F))).Nodup)
    (p : Polynomial F) (hdeg : p.degree < (ids.length : ℕ)) :
    (ids.map (fun i => lagrange_val (F := F) ids i
        * Polynomial.eval ((i : ℤ) : F) p)).sum = Polynomial.eval 0 p := by
  classical
  have hndZ : ids.Nodup := hnd.of_map _
  have hcard : ids.toFinset.card = ids.length := List.toFinset_card_of_nodup hndZ
  have hinj : Set.InjOn (fun i : ℤ => (i : F)) ↑ids.toFinset :=
    injOn_cast_toFinset hnd
  have hdeg2 : p.degree < ids.toFinset.card := by rw [hcard]; exact hdeg
  have hinterp := Lagrange.eq_interpolate (s := ids.toFinset)
    (v := fun i : ℤ => (i : F)) hinj hdeg2
  have heval := congrArg (Polynomial.eval (0 : F)) hinterp
  rw [Lagrange.interpolate_apply, Polynomial.eval_finset_sum] at heval
  simp only [Polynomial.eval_mul, Polynomial.eval_C] at heval
  have hbasis : ∀ i ∈ ids.toFinset,
      Polynomial.eval 0 (Lagrange.basis ids.toFinset (fun i : ℤ => (i : F)) i)
        = lagrange_val (F := F) ids i := by
    intro i hi
    rw [Lagrange.basis, Polynomial.eval_prod]
    have hstep : ∀ j ∈ ids.toFinset.erase i,
        Polynomial.eval 0 (Lagrange.basisDivisor ((i : F)) ((j : F)))
          = ((j : ℤ) : F) * (((j : ℤ) : F) - ((i : ℤ) : F))⁻¹ := by
      intro j hj
      rw [Lagrange.basisDivisor]
      simp only [Polynomial.eval_mul, Polynomial.eval_C, Polynomial.eval_sub,
        Polynomial.eval_X]
      rw [zero_sub]
      rw [show (((j : ℤ) : F) - ((i : ℤ) : F)) = -(((i : ℤ) : F) - ((j : ℤ) : F))
        by ring, inv_neg]
      ring
    rw [Finset.prod_congr rfl hstep]
    rw [Finset.prod_mul_distrib, Finset.prod_inv_distrib]
    rw [lagrange_val, lagrange_spec_num_finset hndZ, lagrange_spec_denom_finset hndZ]
  rw [← List.sum_toFinset _ hndZ]
  rw [heval]
  refine Finset.sum_congr rfl (fun i hi => ?_)
  rw [hbasis i hi]
  ring

theorem group_pub_eq_sum (ids : List ℤ) (pubs : List F)
    (hlen : ids.length = pubs.length) (hne : ids ≠ [])
    (hnd : (ids.map (fun i : ℤ => (i : F))).Nodup) :
    group_pub_from_tweaked_pubshares ids pubs =
      (if ((ids.zip pubs).map (fun pr => lagrange_val ids pr.1 * pr.2)).sum = 0
       then .error .interpolationInfinity
       else .ok (((ids.zip pubs).map
          (fun pr => lagrange_val ids pr.1 * pr.2)).sum)) := by
  have hndZ : ids.Nodup := hnd.of_map _
  exact group_pub_eq_sum2 ids pubs hlen hne hndZ
    (fun i hi => lagrange_spec_denom_ne_zero hnd hi)

theorem reconstruct_run (ctx : TapHashCtx F) (tape : ℕ → F) (t n : ℕ)
    (vss ss ps : List F)
    (hrun : trusted_dealer_key_generation ctx tape t n = .ok (vss, ss, ps))
    (ids : List ℤ)
    (hids : ∀ i ∈ ids, 1 ≤ i ∧ i ≤ (n : ℤ))
    (hnd : (ids.map (fun i : ℤ => (i : F))).Nodup)
    (hcard : t ≤ ids.length) :
    group_pub_from_tweaked_pubshares ids
        (ids.map (fun i => ps.getD (i.toNat - 1) 0)) =
      .ok (groupKeyOf ctx (tape 0)) := by
  obtain ⟨ht1, ht2, hvss, ha0, hQ, hsh⟩ := keygen_ok_elim hrun
  subst hvss
  obtain ⟨hss, hps, hnz, hassert⟩ := keygen_shares_ok_elim hsh
  have hlenids : 1 ≤ ids.length := le_trans ht1 hcard
  have hne : ids ≠ [] := by
    intro h
    rw [h] at hlenids
    simp at hlenids
  have hlen : ids.length = (ids.map fun i => ps.getD (i.toNat - 1) 0).length := by
    simp
  rw [group_pub_eq_sum ids _ hlen hne hnd]
  rw [zip_self_map, List.map_map]
  have hdegp : (toPoly ((List.range t).map tape)).degree < (ids.length : ℕ) := by
    refine lt_of_lt_of_le (toPoly_degree_lt _) ?_
    have hlt : ((List.range t).map tape).length = t := by simp
    rw [hlt]
    exact_mod_cast hcard
  have hdeg1 : (1 : Polynomial F).degree < (ids.length : ℕ) := by
    rw [Polynomial.degree_one]
    exact_mod_cast hlenids
  have hshare : ∀ i ∈ ids, ps.getD (i.toNat - 1) 0
      = ((signOf ctx (tape 0) : ℤ) : F)
          * Polynomial.eval ((i : ℤ) : F) (toPoly ((List.range t).map tape))
        + tweakOf ctx (tape 0) := by
    intro i hi
    obtain ⟨hi1, hi2⟩ := hids i hi
    rw [hps]
    rw [getD_range'_map _ n i.toNat (by omega) (by omega)]
    rw [eval_point_poly_eq_scalar, eval_scalar_poly_eq_eval]
    rw [show ((i.toNat : ℕ) : F) = ((i : ℤ) : F) by
      rw [← Int.cast_natCast]
      congr 1
      omega]
    simp [G]
  have hmapeq : (ids.map (fun i =>
        lagrange_val (F := F) ids i * ps.getD (i.toNat - 1) 0))
      = ids.map (fun i =>
          ((signOf ctx (tape 0) : ℤ) : F) * (lagrange_val ids i
            * Polynomial.eval ((i : ℤ) : F) (toPoly ((List.range t).map tape)))
          + tweakOf ctx (tape 0) * (lagrange_val ids i
            * Polynomial.eval ((i : ℤ) : F) (1 : Polynomial F))) := by
    apply List.map_congr_left
    intro i hi
    rw [hshare i hi]
    simp only [Polynomial.eval_one]
    ring
  rw [show ((fun pr : ℤ × F => lagrange_val (F := F) ids pr.1 * pr.2) ∘
      fun a : ℤ => (a, ps.getD (a.toNat - 1) 0))
    = fun i : ℤ => lagrange_val (F := F) ids i * ps.getD (i.toNat - 1) 0
    from rfl]
  rw [hmapeq, List.sum_map_add, List.sum_map_mul_left, List.sum_map_mul_left]
  rw [sum_lagrange_weighted_eval ids hnd _ hdegp]
  rw [sum_lagrange_weighted_eval ids hnd 1 hdeg1]
  rw [Polynomial.eval_one, toPoly_eval_zero, run_commitment_headD tape ht1,
    mul_one]
  have hKey : ((signOf ctx (tape 0) : ℤ) : F) * tape 0 + tweakOf ctx (tape 0)
      = groupKeyOf ctx (tape 0) := by
    simp [groupKeyOf, G]
  rw [hKey, if_neg hQ]

end FieldBridge

section ClaimsD

variable {F : Type} [Field F] [DecidableEq F]

/-- C2 (amended): for every successful run, deriving the group key from the
commitment list returns exactly the run group key `Q = g * A_0 + tweak * G`,
and reconstruction from any subset of at least t participant ids with their
matching public shares returns the same Q, provided the chosen ids are
pairwise distinct as scalars modulo the curve order (automatic whenever n
is below the curve order); distinct such subsets therefore all reconstruct
the identical Q. -/
theorem C2_group_key_agreement (ctx : TapHashCtx F) (tape : ℕ → F)
    (t n : ℕ) (vss ss ps : List F)
    (hrun : trusted_dealer_key_generation ctx tape t n = .ok (vss, ss, ps)) :
    group_pubkey_from_commitment ctx vss =
      .ok (groupKeyOf ctx (vss.headD 0)) ∧
    ∀ ids : List ℤ, (∀ i ∈ ids, 1 ≤ i ∧ i ≤ (n : ℤ)) →
      (ids.map (fun i : ℤ => (i : F))).Nodup → t ≤ ids.length →
      group_pub_from_tweaked_pubshares ids
          (ids.map (fun i => ps.getD (i.toNat - 1) 0))
        = .ok (groupKeyOf ctx (vss.headD 0)) := by
  obtain ⟨ht1, ht2, hvss, ha0, hQ, hsh⟩ := keygen_ok_elim hrun
  have hhead : vss.headD 0 = tape 0 := by
    rw [hvss]
    exact run_commitment_headD tape ht1
  have hne : vss ≠ [] := by
    rw [hvss]
    simp
    omega
  constructor
  · exact derive_group_key_ok ctx vss hne (by rw [hhead]; exact ha0)
      (by rw [hhead]; exact hQ)
  · intro ids hids hnd hcard
    rw [hhead]
    exact reconstruct_run ctx tape t n vss ss ps hrun ids hids hnd hcard

/-- C9 (amended): reconstruction of the group key from tweaked public
shares fails exactly on length mismatch, empty input, duplicate integer
ids, two ids congruent modulo the curve order (the Lagrange denominator
vanishes and its inversion fails ZeroDivisor), or an identity interpolated
sum; it never returns the identity point on success; and for a t = 2,
n = 3 run the quorums [1, 2] and [2, 3] both reconstruct the same key
that group_pubkey_from_commitment derives. -/
theorem C9_reconstruction_behavior (ctx : TapHashCtx F) (tape : ℕ → F)
    (vss ss ps : List F)
    (hrun : trusted_dealer_key_generation ctx tape 2 3 = .ok (vss, ss, ps))
    (hnd123 : (([1, 2, 3] : List ℤ).map (fun i : ℤ => (i : F))).Nodup) :
    (∀ (ids : List ℤ) (pubs : List F),
      ((∃ e, group_pub_from_tweaked_pubshares ids pubs = .error e) ↔
        (ids.length ≠ pubs.length ∨ ids = [] ∨ ¬ ids.Nodup ∨
         (∃ i ∈ ids, ∃ j ∈ ids, j ≠ i ∧ ((j : ℤ) : F) = ((i : ℤ) : F)) ∨
         ((ids.zip pubs).map
            (fun pr => lagrange_val ids pr.1 * pr.2)).sum = 0))) ∧
    (∀ (ids : List ℤ) (pubs : List F) (Q : F),
      group_pub_from_tweaked_pubshares ids pubs = .ok Q → Q ≠ 0) ∧
    (group_pub_from_tweaked_pubshares [1, 2]
        (([1, 2] : List ℤ).map (fun i => ps.getD (i.toNat - 1) 0))
      = .ok (groupKeyOf ctx (tape 0)) ∧
     group_pub_from_tweaked_pubshares [2, 3]
        (([2, 3] : List ℤ).map (fun i => ps.getD (i.toNat - 1) 0))
      = .ok (groupKeyOf ctx (tape 0)) ∧
     group_pubkey_from_commitment ctx vss = .ok (groupKeyOf ctx (tape 0))) := by
  refine ⟨?_, ?_, ?_, ?_, ?_⟩
  · intro ids pubs
    constructor
    · rintro ⟨e, he⟩
      by_contra hno
      push_neg at hno
      obtain ⟨h1, h2, h3, h4, h5⟩ := hno
      have hden : ∀ i ∈ ids, lagrange_spec_denom (F := F) ids i ≠ 0 := by
        intro i hi h0
        obtain ⟨j, hj, hne, hcast⟩ :=
          (lagrange_spec_denom_eq_zero_iff ids i).mp h0
        exact h4 i hi j hj hne hcast
      rw [group_pub_eq_sum2 ids pubs h1 h2 h3 hden] at he
      rw [if_neg h5] at he
      cases he
    · intro hdisj
      cases hv : group_pub_from_tweaked_pubshares ids pubs with
      | error e => exact ⟨e, rfl⟩
      | ok Q =>
          exfalso
          obtain ⟨hlen, hne, hndZ, hQ0, hloop⟩ := group_pub_ok_elim hv
          have hmemz : ∀ pr ∈ ids.zip pubs, pr.1 ∈ ids :=
            fun pr hpr => (List.of_mem_zip hpr).1
          have hnod : ¬ ∃ pr ∈ ids.zip pubs,
              lagrange_spec_denom (F := F) ids pr.1 = 0 := by
            intro hex
            obtain ⟨e, he2⟩ :=
              (reconstruct_loop_error_iff ids hndZ (ids.zip pubs) 0 hmemz).mpr
                hex
            rw [hloop] at he2
            cases he2
          rcases hdisj with h | h | h | h | h
          · exact h hlen
          · exact hne h
          · exact h hndZ
          · obtain ⟨i, hi, hcong⟩ := h
            have h0 : lagrange_spec_denom (F := F) ids i = 0 :=
              (lagrange_spec_denom_eq_zero_iff ids i).mpr hcong
            have hmemfst : i ∈ (ids.zip pubs).map Prod.fst := by
              rw [List.map_fst_zip ids pubs (le_of_eq hlen)]
              exact hi
            obtain ⟨pr, hpr, hpr1⟩ := List.mem_map.mp hmemfst
            exact hnod ⟨pr, hpr, by rw [hpr1]; exact h0⟩
          · have hden : ∀ pr ∈ ids.zip pubs,
                lagrange_spec_denom (F := F) ids pr.1 ≠ 0 := by
              intro pr hpr h0
              exact hnod ⟨pr, hpr, h0⟩
            rw [reconstruct_loop_ok2 ids hndZ (ids.zip pubs) 0 hmemz hden]
              at hloop
            simp only [zero_add, Except.ok.injEq] at hloop
            exact hQ0 (by rw [← hloop, h])
  · intro ids pubs Q h
    exact (group_pub_ok_elim h).2.2.2.1
  · have hsub : List.Sublist ([1, 2] : List ℤ) [1, 2, 3] := by
      refine List.Sublist.cons₂ _ (List.Sublist.cons₂ _ ?_)
      exact List.nil_sublist _
    exact reconstruct_run ctx tape 2 3 vss ss ps hrun [1, 2]
      (by decide) (hnd123.sublist (hsub.map _)) (by norm_num)
  · have hsub : List.Sublist ([2, 3] : List ℤ) [1, 2, 3] := by
      refine List.Sublist.cons _ (List.Sublist.cons₂ _ (List.Sublist.cons₂ _ ?_))
      exact List.nil_sublist _
    exact reconstruct_run ctx tape 2 3 vss ss ps hrun [2, 3]
      (by decide) (hnd123.sublist (hsub.map _)) (by norm_num)
  · obtain ⟨ht1, ht2, hvss, ha0, hQ, hsh⟩ := keygen_ok_elim hrun
    have hhead : vss.headD 0 = tape 0 := by
      rw [hvss]
      exact run_commitment_headD tape ht1
    have hne : vss ≠ [] := by
      rw [hvss]
      simp
    rw [← hhead]
    exact derive_group_key_ok ctx vss hne (by rw [hhead]; exact ha0)
      (by rw [hhead]; exact hQ)

end ClaimsD

/-- A concrete random tape over the small field: the nonzero secret
coefficient 1 followed by zero coefficients. -/
def tapeW : ℕ → ZMod 5 := fun k => if k = 0 then 1 else 0

instance instFactPrimeFive : Fact (Nat.Prime 5) := ⟨by norm_num⟩

/-- Witness for C2: a concrete t = 2, n = 3 run; the derived and the
reconstructed (quorum [1, 3]) keys agree. -/
theorem C2_witness :
    group_pubkey_from_commitment ctxW [1, 1] =
      .ok (groupKeyOf ctxW (([1, 1] : List (ZMod 5)).headD 0)) ∧
    group_pub_from_tweaked_pubshares [1, 3]
        (([1, 3] : List ℤ).map
          (fun i => ([2, 3, 4] : List (ZMod 5)).getD (i.toNat - 1) 0))
      = .ok (groupKeyOf ctxW (([1, 1] : List (ZMod 5)).headD 0)) := by
  have h := C2_group_key_agreement ctxW (fun _ => 1) 2 3
    [1, 1] [2, 3, 4] [2, 3, 4] (by decide)
  exact ⟨h.1, h.2 [1, 3] (by decide) (by decide) (by decide)⟩

/-- Counterexample for C2 as frozen: over a compliant instantiation of the
external field interface (the prime field with 5 elements, playing the
role of the secp256k1 scalar field), a successful t = 2, n = 6 run admits
the subset [1, 6] of distinct participant ids whose reconstruction fails
with ZeroDivisor instead of returning the derived group key, because the
ids 1 and 6 coincide modulo the group order. -/
theorem C2_counterexample :
    trusted_dealer_key_generation ctxW tapeW 2 6 =
      .ok ([1, 0], [1, 1, 1, 1, 1, 1], [1, 1, 1, 1, 1, 1]) ∧
    ([1, 6] : List ℤ).Nodup ∧
    (∀ i ∈ ([1, 6] : List ℤ), 1 ≤ i ∧ i ≤ 6) ∧
    2 ≤ ([1, 6] : List ℤ).length ∧
    group_pub_from_tweaked_pubshares [1, 6]
        (([1, 6] : List ℤ).map
          (fun i => ([1, 1, 1, 1, 1, 1] : List (ZMod 5)).getD (i.toNat - 1) 0))
      = .error .zeroDivisor ∧
    group_pub_from_tweaked_pubshares [1, 6]
        (([1, 6] : List ℤ).map
          (fun i => ([1, 1, 1, 1, 1, 1] : List (ZMod 5)).getD (i.toNat - 1) 0))
      ≠ group_pubkey_from_commitment ctxW [1, 0] := by
  refine ⟨by decide, by decide, by decide, by decide, by decide, by decide⟩

/-- Witness for C9: the t = 2, n = 3 quorum scenario at concrete inputs. -/
theorem C9_witness :
    group_pub_from_tweaked_pubshares [1, 2]
        (([1, 2] : List ℤ).map
          (fun i => ([2, 3, 4] : List (ZMod 5)).getD (i.toNat - 1) 0))
      = .ok (groupKeyOf ctxW 1) ∧
    group_pub_from_tweaked_pubshares [2, 3]
        (([2, 3] : List ℤ).map
          (fun i => ([2, 3, 4] : List (ZMod 5)).getD (i.toNat - 1) 0))
      = .ok (groupKeyOf ctxW 1) ∧
    group_pubkey_from_commitment ctxW [1, 1] = .ok (groupKeyOf ctxW 1) := by
  have h := C9_reconstruction_behavior ctxW (fun _ => 1)
    [1, 1] [2, 3, 4] [2, 3, 4] (by decide) (by decide)
  exact h.2.2

/-- Counterexample for C9 as frozen: over the scalar field of the real
curve order, the ids 1 and n + 1 are distinct integers, the two lists have
equal length and no duplicates, yet reconstruction fails with ZeroDivisor
(the Lagrange denominator vanishes modulo the curve order), a failure mode
outside the four enumerated conditions. -/
theorem C9_counterexample :
    group_pub_from_tweaked_pubshares (F := ZMod secpOrder)
        [1, (secpOrder : ℤ) + 1] [1, 1] = .error .zeroDivisor ∧
    ([1, (secpOrder : ℤ) + 1] : List ℤ).length
      = ([1, 1] : List (ZMod secpOrder)).length ∧
    ([1, (secpOrder : ℤ) + 1] : List ℤ) ≠ [] ∧
    ([1, (secpOrder : ℤ) + 1] : List ℤ).Nodup := by
  refine ⟨by decide, by decide, by decide, by decide⟩

end TrustedDealer
